import Mathlib

/-!
Shallow embedding of NativeJIT/inc/NativeJIT/Packed.h.

The C++ class family Packed<W, REST> packs an ordered stack of unsigned
bit fields into one unsigned 64-bit integer m_fields.  We model the runtime
value as a one-field structure holding a natural number kept below 2^64 by
reducing modulo 2^64 exactly where the C++ performs 64-bit arithmetic.

Width arithmetic subtleties carried over faithfully from the source:

* Back() computes m_fields & ((1 << W) - 1).  The literal 1 has 32-bit
  signed int type, so the mask is produced in 32-bit arithmetic and then
  converted (sign extended) to unsigned 64-bit for the AND.  For W up to 30
  the mask is 2^W - 1; for W = 31 the twos-complement wraparound still
  yields 2^31 - 1; for W in 32..63 the shift overflows the 32-bit operand
  (the compiler constant-folds the out-of-range shift of the template
  constant to 0), the subtraction wraps to the bit pattern of -1, and the
  sign extension turns the mask into all ones, 2^64 - 1.  We model the
  shift value reduced modulo 2^32, matching that constant folding.

* c_fieldSizes is declared unsigned __int64, but its initializer computes
  W << (REST::c_fieldCount * 8) on the 32-bit unsigned W before the OR
  widens, so slots at bit positions 32 and above are truncated away.

* The static_assert in Packed<W, REST>::Push tests
  X + REST::c_fieldCount <= 8, mixing the width X of the new field into a
  bound whose message speaks about the number of fields.  The two single
  field specializations Packed<W, void> and Packed<0, void> have no assert.
-/

namespace NativeJIT

/-- Bit pattern (as a natural number below 2^32) of the 32-bit int
expression (1 << W) - 1: the shift value is reduced modulo 2^32 and the
subtraction wraps modulo 2^32. -/
def maskBits32 (W : Nat) : Nat :=
  (2 ^ W % 2 ^ 32 + (2 ^ 32 - 1)) % 2 ^ 32

/-- Conversion of a 32-bit int (given by its bit pattern) to
unsigned __int64: nonnegative values are preserved, negative values are
sign extended modulo 2^64. -/
def int32ToUInt64 (x : Nat) : Nat :=
  if x < 2 ^ 31 then x else 2 ^ 64 - 2 ^ 32 + x

/-- The unsigned 64-bit mask Back() ANDs against: ((1 << W) - 1) computed
in 32-bit int arithmetic and converted to unsigned __int64. -/
def backMask (W : Nat) : Nat :=
  int32ToUInt64 (maskBits32 W)

/-- Runtime representation shared by Packed<W, REST> and Packed<W, void>:
the single public data member unsigned __int64 m_fields. -/
structure Packed where
  m_fields : Nat
deriving DecidableEq

/-- Packed::Create: stores the argument verbatim into m_fields.  The
parameter has type unsigned __int64, modelled by reducing modulo 2^64. -/
def Packed.Create (value : Nat) : Packed :=
  ⟨value % 2 ^ 64⟩

/-- Packed::GetBits: returns m_fields. -/
def Packed.GetBits (p : Packed) : Nat :=
  p.m_fields

/-- Packed::operator unsigned __int64: returns m_fields. -/
def Packed.toUnsignedInt64 (p : Packed) : Nat :=
  p.m_fields

/-- Packed<W, REST>::Push<X> and Packed<W, void>::Push<X>:
fields = (m_fields << X) | value in unsigned 64-bit arithmetic, then
Packed<X, Packed>::Create(fields). -/
def Packed.Push (X : Nat) (p : Packed) (value : Nat) : Packed :=
  Packed.Create (p.m_fields <<< X % 2 ^ 64 ||| value % 2 ^ 64)

/-- Packed<W, REST>::Pop: REST::Create(m_fields >> W). -/
def Packed.Pop (W : Nat) (p : Packed) : Packed :=
  Packed.Create (p.m_fields >>> W)

/-- Packed<W, REST>::Back and Packed<W, void>::Back:
m_fields & ((1 << W) - 1), the mask being the 32-bit int value described
at backMask. -/
def Packed.Back (W : Nat) (p : Packed) : Nat :=
  p.m_fields &&& backMask W

/-- Packed<0, void>::Push<X>: fields = value; Packed<X>::Create(fields).
The width X only selects the result schema, the bits are stored verbatim. -/
def emptyPush (X : Nat) (value : Nat) : Packed :=
  Packed.Create value

/-- Compile-time field count of a schema, the widths listed most recently
pushed first: Packed<W, REST>::c_fieldCount = 1 + REST::c_fieldCount,
Packed<W, void>::c_fieldCount = 1, Packed<0, void>::c_fieldCount = 0. -/
def c_fieldCount (ws : List Nat) : Nat :=
  ws.length

/-- Compile-time width descriptor:
Packed<W, REST>::c_fieldSizes = (W << (REST::c_fieldCount * 8)) | REST::c_fieldSizes.
W is a 32-bit unsigned template parameter and the shift is performed on it
before the OR widens to 64 bits, so the shifted term is reduced modulo
2^32.  Packed<W, void>::c_fieldSizes = W; Packed<0, void>::c_fieldSizes = 0. -/
def c_fieldSizes : List Nat → Nat
  | [] => 0
  | W :: rest => (W % 2 ^ 32) <<< (8 * rest.length) % 2 ^ 32 ||| c_fieldSizes rest

/-- Modelled from the spec: the descriptor recurrence
(W shifted left by Rest.fieldCount x 8 bits) OR Rest.fieldSizeDescriptor,
computed in 64-bit arithmetic as the claim states. -/
def specFieldSizes : List Nat → Nat
  | [] => 0
  | W :: rest => W <<< (8 * rest.length) % 2 ^ 64 ||| specFieldSizes rest

/-- The compile-time admission condition of Push<X> on a schema ws (widths
most recently pushed first): Packed<W, REST>::Push carries
static_assert(X + REST::c_fieldCount <= 8); the specializations
Packed<W, void> and Packed<0, void> have no assertion. -/
def pushAllowed (X : Nat) (ws : List Nat) : Bool :=
  match ws with
  | [] => true
  | [_] => true
  | _ :: rest => decide (X + rest.length ≤ 8)

/-- Pushing a list of (width, value) fields, first element pushed first,
onto an existing packed value. -/
def pushAllFrom (p : Packed) : List (Nat × Nat) → Packed
  | [] => p
  | f :: rest => pushAllFrom (Packed.Push f.1 p f.2) rest

/-- Building a packed value from scratch: the first field goes through
Packed<0, void>::Push, the remaining ones through Packed<..>::Push. -/
def buildPacked : List (Nat × Nat) → Packed
  | [] => Packed.Create 0
  | f :: rest => pushAllFrom (emptyPush f.1 f.2) rest

/-- Reading a packed value back against its schema (widths most recently
pushed first): successive Back() results, moving down with Pop(). -/
def readAll : List Nat → Packed → List Nat
  | [], _ => []
  | W :: rest, p => Packed.Back W p :: readAll rest (Packed.Pop W p)

/-! Method-style embeddings for the frame claim: each non-static member
function of Packed is modelled as acting on the receiver state, returning
the ordinary result together with the receiver state after the call.  The
bodies of Push, Pop, Back, GetBits and operator unsigned __int64 contain
no assignment to m_fields (Push and Pop build a fresh object through
Create), so the state after the call is the receiver unchanged. -/

/-- Packed::Push<X> as a method acting on the receiver state. -/
def Packed.PushM (X : Nat) (p : Packed) (value : Nat) : Packed × Packed :=
  (Packed.Create (p.m_fields <<< X % 2 ^ 64 ||| value % 2 ^ 64), p)

/-- Packed::Pop as a method acting on the receiver state. -/
def Packed.PopM (W : Nat) (p : Packed) : Packed × Packed :=
  (Packed.Create (p.m_fields >>> W), p)

/-- Packed::Back as a method acting on the receiver state. -/
def Packed.BackM (W : Nat) (p : Packed) : Nat × Packed :=
  (p.m_fields &&& backMask W, p)

/-- Packed::GetBits as a method acting on the receiver state. -/
def Packed.GetBitsM (p : Packed) : Nat × Packed :=
  (p.m_fields, p)

/-- Packed::operator unsigned __int64 as a method acting on the receiver
state. -/
def Packed.toUnsignedInt64M (p : Packed) : Nat × Packed :=
  (p.m_fields, p)

/-! Helper lemmas about the 64-bit arithmetic. -/

lemma lor_mod_two_pow (a b k : Nat) :
    (a ||| b) % 2 ^ k = a % 2 ^ k ||| b % 2 ^ k := by
  apply Nat.eq_of_testBit_eq
  intro i
  simp [Nat.testBit_mod_two_pow, Nat.testBit_lor, Bool.and_or_distrib_left]

lemma lor_shiftRight (a b k : Nat) :
    (a ||| b) >>> k = a >>> k ||| b >>> k := by
  apply Nat.eq_of_testBit_eq
  intro i
  simp [Nat.testBit_shiftRight, Nat.testBit_lor]

lemma backMask_low (W : Nat) (hW : W ≤ 31) : backMask W = 2 ^ W - 1 := by
  have h1 : 1 ≤ 2 ^ W := Nat.one_le_two_pow
  have h2 : 2 ^ W ≤ 2 ^ 31 := Nat.pow_le_pow_right (by norm_num) hW
  have h3 : (2 : Nat) ^ 31 < 2 ^ 32 := by norm_num
  unfold backMask maskBits32 int32ToUInt64
  have hm : 2 ^ W % 2 ^ 32 = 2 ^ W := Nat.mod_eq_of_lt (lt_of_le_of_lt h2 h3)
  rw [hm]
  have hadd : 2 ^ W + (2 ^ 32 - 1) = (2 ^ W - 1) + 2 ^ 32 := by omega
  rw [hadd, Nat.add_mod_right, Nat.mod_eq_of_lt (by omega)]
  rw [if_pos (by omega)]

lemma backMask_high (W : Nat) (hW : 32 ≤ W) : backMask W = 2 ^ 64 - 1 := by
  obtain ⟨c, hc⟩ : (2 : Nat) ^ 32 ∣ 2 ^ W := pow_dvd_pow 2 hW
  have hz : 2 ^ W % 2 ^ 32 = 0 := by rw [hc, Nat.mul_mod_right]
  unfold backMask maskBits32 int32ToUInt64
  rw [hz, Nat.zero_add, Nat.mod_eq_of_lt (by norm_num), if_neg (by norm_num)]
  norm_num

lemma back_eq_mod (W : Nat) (p : Packed) (hW : W ≤ 31) :
    Packed.Back W p = p.m_fields % 2 ^ W := by
  rw [Packed.Back, backMask_low W hW, Nat.and_pow_two_sub_one_eq_mod]

/-- Claim C1: for every field width W in 1..63 and every value v below
2^W, pushing v onto the empty schema and reading it back with Back()
returns v exactly, and that result equals the raw bits masked with
2^W - 1. -/
theorem back_of_emptyPush (W v : Nat) (h1 : 1 ≤ W) (h2 : W ≤ 63)
    (hv : v < 2 ^ W) :
    Packed.Back W (emptyPush W v) = v ∧
    Packed.Back W (emptyPush W v) = (emptyPush W v).GetBits &&& (2 ^ W - 1) := by
  have h64 : v < 2 ^ 64 :=
    lt_of_lt_of_le hv (Nat.pow_le_pow_right (by norm_num) (by omega))
  have hbits : (emptyPush W v).m_fields = v := Nat.mod_eq_of_lt h64
  have hback : Packed.Back W (emptyPush W v) = v := by
    rcases le_or_lt W 31 with hle | hgt
    · rw [back_eq_mod W _ hle, hbits, Nat.mod_eq_of_lt hv]
    · rw [Packed.Back, backMask_high W (by omega), hbits,
        Nat.and_pow_two_sub_one_eq_mod, Nat.mod_eq_of_lt h64]
  refine ⟨hback, ?_⟩
  rw [hback, Packed.GetBits, hbits, Nat.and_pow_two_sub_one_eq_mod,
    Nat.mod_eq_of_lt hv]

/-- Witness for C1 at W = 3, v = 5. -/
theorem back_of_emptyPush_witness :
    1 ≤ 3 ∧ 3 ≤ 63 ∧ 5 < 2 ^ 3 ∧ Packed.Back 3 (emptyPush 3 5) = 5 :=
  ⟨by decide, by decide, by decide,
    (back_of_emptyPush 3 5 (by decide) (by decide) (by decide)).1⟩

/-- Claim C3: Push performs no masking or validation of the pushed value:
the resulting raw bits are ((bits << X) | v) modulo 2^64, and on the empty
schema the raw bits are v verbatim. -/
theorem push_raw_bits (X : Nat) (p : Packed) (v : Nat) (hX : X ≤ 63)
    (hp : p.GetBits < 2 ^ 64) (hv : v < 2 ^ 64) :
    (Packed.Push X p v).GetBits = (p.GetBits <<< X ||| v) % 2 ^ 64 ∧
    (emptyPush X v).GetBits = v := by
  constructor
  · have h1 : p.m_fields <<< X % 2 ^ 64 ||| v % 2 ^ 64 < 2 ^ 64 :=
      Nat.or_lt_two_pow (Nat.mod_lt _ (by norm_num)) (Nat.mod_lt _ (by norm_num))
    calc (Packed.Push X p v).GetBits
        = (p.m_fields <<< X % 2 ^ 64 ||| v % 2 ^ 64) % 2 ^ 64 := rfl
      _ = p.m_fields <<< X % 2 ^ 64 ||| v % 2 ^ 64 := Nat.mod_eq_of_lt h1
      _ = (p.GetBits <<< X ||| v) % 2 ^ 64 := (lor_mod_two_pow _ _ _).symm
  · exact Nat.mod_eq_of_lt hv

/-- Witness for C3 at X = 3, bits = 5, v = 70 (an oversized value). -/
theorem push_raw_bits_witness :
    3 ≤ 63 ∧ (Packed.Create 5).GetBits < 2 ^ 64 ∧ 70 < 2 ^ 64 ∧
    (Packed.Push 3 (Packed.Create 5) 70).GetBits =
      ((Packed.Create 5).GetBits <<< 3 ||| 70) % 2 ^ 64 :=
  ⟨by decide, by decide, by decide,
    (push_raw_bits 3 (Packed.Create 5) 70 (by decide) (by decide) (by decide)).1⟩

/-- Claim C4: Pop returns the raw bits shifted right by W, discarding
exactly the lowest W bits. -/
theorem pop_raw_bits (W : Nat) (p : Packed) (hp : p.GetBits < 2 ^ 64) :
    (Packed.Pop W p).GetBits = p.GetBits >>> W := by
  have h : p.m_fields >>> W < 2 ^ 64 := by
    rw [Nat.shiftRight_eq_div_pow]
    exact lt_of_le_of_lt (Nat.div_le_self _ _) hp
  exact Nat.mod_eq_of_lt h

/-- Witness for C4 at W = 3 on raw bits 12345. -/
theorem pop_raw_bits_witness :
    (Packed.Create 12345).GetBits < 2 ^ 64 ∧
    (Packed.Pop 3 (Packed.Create 12345)).GetBits =
      (Packed.Create 12345).GetBits >>> 3 :=
  ⟨by decide, pop_raw_bits 3 (Packed.Create 12345) (by decide)⟩

/-- Claim C5 (failing input): the static_assert condition of Push admits a
push of width 1 onto an eight-field schema although the resulting field
count is 9, and rejects a push of width 8 onto a two-field schema although
the resulting field count is only 3.  The code therefore does not enforce
the claimed rule that a push is accepted exactly when the resulting number
of fields stays at most 8. -/
theorem pushAssert_mismatch :
    pushAllowed 1 [1, 1, 1, 1, 1, 1, 1, 1] = true ∧
    c_fieldCount [1, 1, 1, 1, 1, 1, 1, 1] + 1 = 9 ∧
    pushAllowed 8 [3, 3] = false ∧
    c_fieldCount [3, 3] + 1 ≤ 8 := by decide

/-- Claim C6 (counterexample): on the five-field schema of widths
[1, 1, 1, 1, 1] the claimed 64-bit descriptor recurrence gives
0x0101010101 while the code computes the shift on the 32-bit width and
yields 0x01010101, losing the fifth slot. -/
theorem fieldSizes_counterexample :
    specFieldSizes [1, 1, 1, 1, 1] = 4311810305 ∧
    c_fieldSizes [1, 1, 1, 1, 1] = 16843009 ∧
    c_fieldSizes [1, 1, 1, 1, 1] ≠ specFieldSizes [1, 1, 1, 1, 1] := by decide

/-- Claim C6 (amended): the descriptor recurrence shifts the width inside
32-bit arithmetic, so slots at bit positions 32 and above are truncated;
for schemas of at most four fields all slots lie below bit 32 and the
claimed 64-bit formula agrees with the code. -/
theorem fieldSizes_agree_upto4 (ws : List Nat) (hlen : ws.length ≤ 4)
    (hw : ∀ w ∈ ws, w < 2 ^ 8) : c_fieldSizes ws = specFieldSizes ws := by
  induction ws with
  | nil => rfl
  | cons W rest ih =>
    have hW : W < 2 ^ 8 := hw W (by simp)
    have hrest : rest.length ≤ 3 := by
      simpa using hlen
    have hsh : W <<< (8 * rest.length) < 2 ^ 32 := by
      rw [Nat.shiftLeft_eq]
      calc W * 2 ^ (8 * rest.length)
          < 2 ^ 8 * 2 ^ (8 * rest.length) :=
            mul_lt_mul_of_pos_right hW (Nat.pos_pow_of_pos _ (by norm_num))
        _ = 2 ^ (8 + 8 * rest.length) := (pow_add 2 8 (8 * rest.length)).symm
        _ ≤ 2 ^ 32 := Nat.pow_le_pow_right (by norm_num) (by omega)
    simp only [c_fieldSizes, specFieldSizes]
    rw [Nat.mod_eq_of_lt (lt_trans hW (by norm_num)),
      Nat.mod_eq_of_lt hsh,
      Nat.mod_eq_of_lt (lt_trans hsh (by norm_num)),
      ih (by omega) (fun w hmem => hw w (by simp [hmem]))]

/-- Witness for the amended C6 at the two-field schema [3, 4]. -/
theorem fieldSizes_agree_upto4_witness :
    ([3, 4] : List Nat).length ≤ 4 ∧ (∀ w ∈ ([3, 4] : List Nat), w < 2 ^ 8) ∧
    c_fieldSizes [3, 4] = specFieldSizes [3, 4] :=
  ⟨by decide, by decide, fieldSizes_agree_upto4 [3, 4] (by decide) (by decide)⟩

/-- Claim C7: Create stores the raw 64-bit argument verbatim and performs
no validation. -/
theorem create_getBits (x : Nat) (hx : x < 2 ^ 64) :
    (Packed.Create x).GetBits = x :=
  Nat.mod_eq_of_lt hx

/-- Witness for C7 at x = 54321. -/
theorem create_getBits_witness :
    54321 < 2 ^ 64 ∧ (Packed.Create 54321).GetBits = 54321 :=
  ⟨by decide, create_getBits 54321 (by decide)⟩

/-- Claim C8: the implicit conversion to unsigned __int64 returns exactly
the same value as GetBits, the raw bits unchanged. -/
theorem conversion_eq_getBits (p : Packed) :
    Packed.toUnsignedInt64 p = Packed.GetBits p ∧
    Packed.toUnsignedInt64 p = p.m_fields :=
  ⟨rfl, rfl⟩

/-- Claim C9: invoking Push, Pop, Back, GetBits or the implicit
conversion leaves the receiver m_fields unchanged, and each
transformation returns the newly constructed value of the corresponding
pure operation. -/
theorem methods_preserve_m_fields (p : Packed) (X W v : Nat) :
    (Packed.PushM X p v).2 = p ∧ (Packed.PopM W p).2 = p ∧
    (Packed.BackM W p).2 = p ∧ (Packed.GetBitsM p).2 = p ∧
    (Packed.toUnsignedInt64M p).2 = p ∧
    (Packed.PushM X p v).1 = Packed.Push X p v ∧
    (Packed.PopM W p).1 = Packed.Pop W p ∧
    (Packed.BackM W p).1 = Packed.Back W p ∧
    (Packed.GetBitsM p).1 = Packed.GetBits p ∧
    (Packed.toUnsignedInt64M p).1 = Packed.toUnsignedInt64 p :=
  ⟨rfl, rfl, rfl, rfl, rfl, rfl, rfl, rfl, rfl, rfl⟩

/-- Claim C10: for widths X in 1..31, a pushed value is stored unmasked
but truncated to X bits when read back through Back, for every receiver
and every value, oversized or not; concretely, Empty.Push<3>(9) has raw
bits 9 and Back() returns 1. -/
theorem push_back_mod (X : Nat) (p : Packed) (v : Nat) (h1 : 1 ≤ X)
    (h2 : X ≤ 31) :
    Packed.Back X (Packed.Push X p v) = v % 2 ^ X ∧
    (emptyPush 3 9).GetBits = 9 ∧ Packed.Back 3 (emptyPush 3 9) = 1 := by
  refine ⟨?_, by decide, by decide⟩
  have hdvd : (2 : Nat) ^ X ∣ 2 ^ 64 := pow_dvd_pow 2 (by omega)
  rw [back_eq_mod X _ h2]
  calc (Packed.Push X p v).m_fields % 2 ^ X
      = (p.m_fields <<< X % 2 ^ 64 ||| v % 2 ^ 64) % 2 ^ 64 % 2 ^ X := rfl
    _ = (p.m_fields <<< X % 2 ^ 64 ||| v % 2 ^ 64) % 2 ^ X :=
        Nat.mod_mod_of_dvd _ hdvd
    _ = p.m_fields <<< X % 2 ^ 64 % 2 ^ X ||| v % 2 ^ 64 % 2 ^ X :=
        lor_mod_two_pow _ _ _
    _ = p.m_fields <<< X % 2 ^ X ||| v % 2 ^ X := by
        rw [Nat.mod_mod_of_dvd _ hdvd, Nat.mod_mod_of_dvd _ hdvd]
    _ = 0 ||| v % 2 ^ X := by
        rw [Nat.shiftLeft_eq, Nat.mul_mod_left]
    _ = v % 2 ^ X := Nat.zero_or _

/-- Witness for C10 at X = 3, receiver bits 1, v = 9. -/
theorem push_back_mod_witness :
    1 ≤ 3 ∧ 3 ≤ 31 ∧
    Packed.Back 3 (Packed.Push 3 (Packed.Create 1) 9) = 9 % 2 ^ 3 :=
  ⟨by decide, by decide,
    (push_back_mod 3 (Packed.Create 1) 9 (by decide) (by decide)).1⟩

lemma push_bits_fit (p : Packed) (X v S : Nat) (hb : p.m_fields < 2 ^ S)
    (hv : v < 2 ^ X) (hSX : S + X ≤ 64) :
    (Packed.Push X p v).m_fields = (p.m_fields <<< X ||| v) ∧
    (Packed.Push X p v).m_fields < 2 ^ (S + X) := by
  have hshl : p.m_fields <<< X < 2 ^ (S + X) := by
    rw [Nat.shiftLeft_eq, pow_add]
    exact mul_lt_mul_of_pos_right hb (Nat.pos_pow_of_pos _ (by norm_num))
  have h64 : (2 : Nat) ^ (S + X) ≤ 2 ^ 64 := Nat.pow_le_pow_right (by norm_num) hSX
  have hv' : v < 2 ^ (S + X) :=
    lt_of_lt_of_le hv (Nat.pow_le_pow_right (by norm_num) (by omega))
  have hor : p.m_fields <<< X ||| v < 2 ^ (S + X) := Nat.or_lt_two_pow hshl hv'
  have heq : (Packed.Push X p v).m_fields = p.m_fields <<< X ||| v := by
    calc (Packed.Push X p v).m_fields
        = (p.m_fields <<< X % 2 ^ 64 ||| v % 2 ^ 64) % 2 ^ 64 := rfl
      _ = (p.m_fields <<< X ||| v) % 2 ^ 64 := by
          rw [Nat.mod_eq_of_lt (lt_of_lt_of_le hshl h64),
            Nat.mod_eq_of_lt (lt_of_lt_of_le hv' h64)]
      _ = p.m_fields <<< X ||| v := Nat.mod_eq_of_lt (lt_of_lt_of_le hor h64)
  exact ⟨heq, heq ▸ hor⟩

lemma pop_push (p : Packed) (X v S : Nat) (hb : p.m_fields < 2 ^ S)
    (hv : v < 2 ^ X) (hSX : S + X ≤ 64) :
    Packed.Pop X (Packed.Push X p v) = p := by
  obtain ⟨heq, _⟩ := push_bits_fit p X v S hb hv hSX
  show Packed.Create ((Packed.Push X p v).m_fields >>> X) = p
  rw [heq, lor_shiftRight, Nat.shiftLeft_shiftRight,
    Nat.shiftRight_eq_div_pow, Nat.div_eq_of_lt hv, Nat.or_zero]
  show (⟨p.m_fields % 2 ^ 64⟩ : Packed) = p
  rw [Nat.mod_eq_of_lt
    (lt_of_lt_of_le hb (Nat.pow_le_pow_right (by norm_num) (by omega)))]

lemma back_push (p : Packed) (X v S : Nat) (hb : p.m_fields < 2 ^ S)
    (hv : v < 2 ^ X) (hSX : S + X ≤ 64) (hX31 : X ≤ 31) :
    Packed.Back X (Packed.Push X p v) = v := by
  obtain ⟨heq, _⟩ := push_bits_fit p X v S hb hv hSX
  rw [back_eq_mod X _ hX31, heq, lor_mod_two_pow, Nat.shiftLeft_eq,
    Nat.mul_mod_left, Nat.zero_or, Nat.mod_eq_of_lt hv]

lemma readAll_pushAllFrom (fs : List (Nat × Nat)) :
    ∀ (p : Packed) (S : Nat) (ts : List Nat), p.m_fields < 2 ^ S →
      (∀ f ∈ fs, f.2 < 2 ^ f.1 ∧ f.1 ≤ 31) →
      S + (fs.map Prod.fst).sum ≤ 64 →
      readAll ((fs.map Prod.fst).reverse ++ ts) (pushAllFrom p fs) =
        (fs.map Prod.snd).reverse ++ readAll ts p := by
  induction fs with
  | nil =>
    intro p S ts _ _ _
    simp [pushAllFrom]
  | cons f rest ih =>
    intro p S ts hb hf hsum
    obtain ⟨X, v⟩ := f
    have hfv : v < 2 ^ X ∧ X ≤ 31 := hf (X, v) (List.mem_cons_self _ _)
    have hsum' : S + (X + (rest.map Prod.fst).sum) ≤ 64 := by
      simpa using hsum
    have hb' := (push_bits_fit p X v S hb hfv.1 (by omega)).2
    have hstep := ih (Packed.Push X p v) (S + X) (X :: ts) hb'
      (fun g hg => hf g (List.mem_cons_of_mem _ hg)) (by omega)
    calc readAll ((((X, v) :: rest).map Prod.fst).reverse ++ ts)
          (pushAllFrom p ((X, v) :: rest))
        = readAll ((rest.map Prod.fst).reverse ++ (X :: ts))
            (pushAllFrom (Packed.Push X p v) rest) := by
          simp [pushAllFrom]
      _ = (rest.map Prod.snd).reverse ++ readAll (X :: ts) (Packed.Push X p v) :=
          hstep
      _ = (rest.map Prod.snd).reverse ++
            (v :: readAll ts p) := by
          rw [readAll, back_push p X v S hb hfv.1 (by omega) hfv.2,
            pop_push p X v S hb hfv.1 (by omega)]
      _ = ((((X, v) :: rest).map Prod.snd).reverse ++ readAll ts p) := by
          simp

/-- Claim C2 (counterexample): pushing the fields (width 1, value 1) then
(width 32, value 5) — each value within its declared width, widths
summing to 33 — and reading back does not recover the values: the first
Back() returns 4294967301 instead of 5, because the 32-bit construction
of the Back mask overflows for widths of 32 bits and more and degenerates
to an all-ones mask. -/
theorem roundtrip_counterexample :
    (1 < 2 ^ 1 ∧ 5 < 2 ^ 32 ∧ 1 + 32 ≤ 64) ∧
    readAll [32, 1] (buildPacked [(1, 1), (32, 5)]) = [4294967301, 1] ∧
    readAll [32, 1] (buildPacked [(1, 1), (32, 5)]) ≠ [5, 1] := by decide

/-- Claim C2 (amended): for every nonempty sequence of fields whose
values fit their declared widths, whose widths are each at most 31 bits
(so that the 32-bit construction of the Back mask is exact) and sum to at
most 64, pushing them in order onto the empty schema and then decomposing
with successive Back and Pop calls recovers the values in reverse
order. -/
theorem roundtrip (fs : List (Nat × Nat)) (hne : fs ≠ [])
    (hfit : ∀ f ∈ fs, f.2 < 2 ^ f.1) (hwide : ∀ f ∈ fs, f.1 ≤ 31)
    (hsum : (fs.map Prod.fst).sum ≤ 64) :
    readAll (fs.map Prod.fst).reverse (buildPacked fs) =
      (fs.map Prod.snd).reverse := by
  match fs, hne with
  | (X, v) :: rest, _ =>
    have hv : v < 2 ^ X := hfit (X, v) (List.mem_cons_self _ _)
    have hX : X ≤ 31 := hwide (X, v) (List.mem_cons_self _ _)
    have hv64 : v < 2 ^ 64 :=
      lt_of_lt_of_le hv (Nat.pow_le_pow_right (by norm_num) (by omega))
    have hbits : (emptyPush X v).m_fields < 2 ^ X := by
      show v % 2 ^ 64 < 2 ^ X
      rw [Nat.mod_eq_of_lt hv64]
      exact hv
    have hsum' : X + (rest.map Prod.fst).sum ≤ 64 := by
      simpa using hsum
    have hstep := readAll_pushAllFrom rest (emptyPush X v) X [X] hbits
      (fun g hg => ⟨hfit g (List.mem_cons_of_mem _ hg),
        hwide g (List.mem_cons_of_mem _ hg)⟩) (by omega)
    have hback : Packed.Back X (emptyPush X v) = v := by
      rw [back_eq_mod X _ hX]
      show v % 2 ^ 64 % 2 ^ X = v
      rw [Nat.mod_eq_of_lt hv64, Nat.mod_eq_of_lt hv]
    calc readAll ((((X, v) :: rest).map Prod.fst).reverse)
          (buildPacked ((X, v) :: rest))
        = readAll ((rest.map Prod.fst).reverse ++ [X])
            (pushAllFrom (emptyPush X v) rest) := by
          simp [buildPacked]
      _ = (rest.map Prod.snd).reverse ++ readAll [X] (emptyPush X v) := hstep
      _ = (rest.map Prod.snd).reverse ++ [v] := by
          rw [readAll, readAll, hback]
      _ = (((X, v) :: rest).map Prod.snd).reverse := by simp

/-- Witness for the amended C2 at the fields (3, 5) then (4, 9): reading
back yields 9 then 5. -/
theorem roundtrip_witness :
    ([(3, 5), (4, 9)] : List (Nat × Nat)) ≠ [] ∧
    (∀ f ∈ ([(3, 5), (4, 9)] : List (Nat × Nat)), f.2 < 2 ^ f.1) ∧
    (∀ f ∈ ([(3, 5), (4, 9)] : List (Nat × Nat)), f.1 ≤ 31) ∧
    (([(3, 5), (4, 9)] : List (Nat × Nat)).map Prod.fst).sum ≤ 64 ∧
    readAll (([(3, 5), (4, 9)] : List (Nat × Nat)).map Prod.fst).reverse
        (buildPacked [(3, 5), (4, 9)]) =
      (([(3, 5), (4, 9)] : List (Nat × Nat)).map Prod.snd).reverse :=
  ⟨by decide, by decide, by decide, by decide,
    roundtrip [(3, 5), (4, 9)] (by decide) (by decide) (by decide) (by decide)⟩

end NativeJIT
